import Mathlib

/-!
Verification of the deterministic orchestration pipeline of the GitHub PR
review agent (src/mastra/tools/github.ts and src/mastra/lib/schemas.ts).

Strings are modelled as Lean `String` (a structure holding a `List Char`),
so JavaScript `.length`, `.slice` and `String.prototype` operations become
operations on the underlying character list.  Regular-expression tests from
the external configuration (`SKIP_PATTERNS`) are modelled as opaque Boolean
predicates on filenames, and the external GitHub fetches are modelled as
explicit inputs to the tool bodies, which is exactly how the tool code
consumes them.
-/

namespace PRReview

/-- Modelled from the spec: `truncate(text, maxChars)` lives in
src/mastra/lib/github.ts, which is not part of the available sources.
The spec fixes its behaviour: the result has at most `maxChars`
characters, truncation is always from the tail (the head is kept), a
text that already fits is returned unchanged, and a 50,000-character
text cut to a 20,000-character budget has length exactly 20,000. -/
def truncate (text : String) (maxChars : Nat) : String :=
  ⟨text.data.take maxChars⟩

/-- A string of `n` copies of one character, used for concrete scenarios. -/
def repChar (n : Nat) (c : Char) : String :=
  ⟨List.replicate n c⟩

/-- A changed file of a pull request, after `fileSchema` in
src/mastra/lib/schemas.ts: `patch` is optional (absent for binary or very
large files). -/
structure ChangedFile where
  filename : String
  status : String
  additions : Nat
  deletions : Nat
  changes : Nat
  patch : Option String
deriving DecidableEq

/-- One configured skip pattern is consumed only through `p.test(filename)`,
so a pattern is modelled as a Boolean predicate on the filename. -/
abbrev SkipPattern := String → Bool

/-- The reviewable files of `getPullRequestFiles`
(src/mastra/tools/github.ts:115-117): keep exactly the files whose
filename matches no configured skip pattern. -/
def reviewableFilesOf (patterns : List SkipPattern) (allFiles : List ChangedFile) :
    List ChangedFile :=
  allFiles.filter (fun f => !(patterns.any (fun p => p f.filename)))

/-- Modelled from the spec: the skipped side of the Reviewability Filter
contract `filter(allFiles) -> \x7breviewable, skipped\x7d` (spec §4.1); the
tool code materializes only the reviewable list, the skipped list is its
complement under the same pattern test. -/
def skippedFilesOf (patterns : List SkipPattern) (allFiles : List ChangedFile) :
    List ChangedFile :=
  allFiles.filter (fun f => patterns.any (fun p => p f.filename))

/-- The skip rule exactly as the spec words it (§4.1): a file is skipped if
its path matches a configured pattern OR its status is "removed" and its
deletion count is below the configured threshold.  Stated for comparison
with the behaviour of the source filter. -/
def specSkips (patterns : List SkipPattern) (threshold : Nat) (f : ChangedFile) : Bool :=
  patterns.any (fun p => p f.filename) ||
    (f.status == "removed" && decide (f.deletions < threshold))

/-- Modelled from the spec: `MAX_PATCH_CHARS_PER_FILE` lives in
src/mastra/lib/review-config.ts, which is not part of the available
sources; spec §8 Scenario D fixes the per-file patch budget at 20,000
characters. -/
def MAX_PATCH_CHARS_PER_FILE : Nat := 20000

/-- The per-file mapping of `getPullRequestFiles`
(src/mastra/tools/github.ts:120-123):
`\x7b...f, ...(f.patch ? \x7bpatch: truncate(f.patch, MAX_PATCH_CHARS_PER_FILE)\x7d : \x7b\x7d)\x7d`.
A JavaScript truthiness test on a string is false for the empty string,
so an empty patch is spread through unchanged. -/
def budgetFile (maxPatch : Nat) (f : ChangedFile) : ChangedFile :=
  match f.patch with
  | none => f
  | some p => if p = "" then f else { f with patch := some (truncate p maxPatch) }

/-- Page size of `getPullRequestFiles` (src/mastra/tools/github.ts:92). -/
def FILES_PER_PAGE : Nat := 30

/-- Output record of `getPullRequestFiles` (src/mastra/tools/github.ts:104-110). -/
structure FilesResult where
  files : List ChangedFile
  totalFiles : Nat
  reviewableCount : Nat
  hasMore : Bool
  page : Nat
deriving DecidableEq

/-- Body of `getPullRequestFiles` (src/mastra/tools/github.ts:111-132), with
the externally fetched complete file list and the configured pattern set and
patch budget as explicit inputs.  JavaScript `slice(start, start + 30)` on a
non-negative `start` is `drop start` then `take 30`; the tool is documented
for 1-based pages, so `page - 1` is Nat subtraction. -/
def getPullRequestFiles (patterns : List SkipPattern) (maxPatch : Nat)
    (allFiles : List ChangedFile) (page : Nat) : FilesResult :=
  let reviewableFiles := reviewableFilesOf patterns allFiles
  let start := (page - 1) * FILES_PER_PAGE
  let pageFiles := ((reviewableFiles.drop start).take FILES_PER_PAGE).map (budgetFile maxPatch)
  { files := pageFiles
    totalFiles := allFiles.length
    reviewableCount := pageFiles.length
    hasMore := decide (start + FILES_PER_PAGE < reviewableFiles.length)
    page := page }

/-- Whole-PR diff budget of `getPullRequestDiff` (src/mastra/tools/github.ts:58). -/
def MAX_DIFF_CHARS : Nat := 80000

/-- Output record of `getPullRequestDiff` (src/mastra/tools/github.ts:66-69). -/
structure DiffResult where
  diff : String
  truncated : Bool
deriving DecidableEq

/-- Body of `getPullRequestDiff` (src/mastra/tools/github.ts:76-84), with the
externally fetched raw diff text as explicit input. -/
def getPullRequestDiff (diff : String) : DiffResult :=
  if diff.length > MAX_DIFF_CHARS then
    { diff := truncate diff MAX_DIFF_CHARS, truncated := true }
  else
    { diff := diff, truncated := false }

/-- What the external `fetchFileContent` yields when the file exists
(spec §6: `\x7bcontent, encoding, size\x7d | null`). -/
structure FileData where
  content : String
  encoding : String
  size : Nat
deriving DecidableEq

/-- Output record of `getFileContent` (src/mastra/tools/github.ts:151-155). -/
structure ContentResult where
  content : Option String
  encoding : String
  size : Nat
deriving DecidableEq

/-- Body of `getFileContent` (src/mastra/tools/github.ts:156-163), with the
external fetch result as explicit input: a missing file/ref (`null`) becomes
a `none` content with defaults, never an error; an existing file has its
content cut to the configured full-content budget. -/
def getFileContent (maxContent : Nat) (fetched : Option FileData) : ContentResult :=
  match fetched with
  | none => { content := none, encoding := "utf-8", size := 0 }
  | some d =>
      { content := some (truncate d.content maxContent)
        encoding := d.encoding
        size := d.size }

/-- Finding severity, after `fileReviewSchema` in src/mastra/lib/schemas.ts. -/
inductive Severity
  | critical
  | warning
  | suggestion
  | positive
deriving DecidableEq

/-- Review verdict, after `aggregateSummarySchema` in src/mastra/lib/schemas.ts. -/
inductive Verdict
  | APPROVE
  | REQUEST_CHANGES
  | COMMENT
deriving DecidableEq

/-- One reviewer finding (spec §3): severity, owning filename, message.
The category field is not needed by the aggregation invariant and is
omitted. -/
structure Finding where
  severity : Severity
  filename : String
  message : String
deriving DecidableEq

/-- What the external summarization capability returns (spec §6):
prose summary, quality score, verdict. -/
structure SummarizerOutput where
  summary : String
  qualityScore : Nat
  verdict : Verdict
deriving DecidableEq

/-- Modelled from the spec: aggregation step 3 of §4.6 — severity
`critical` buckets into `criticalIssues` regardless of category.  The
Finding Aggregator lives in the workflow file, which is not part of the
available sources. -/
def criticalIssuesOf (findings : List Finding) : List String :=
  (findings.filter (fun f => f.severity == Severity.critical)).map (fun f => f.message)

/-- The observable note appended when the aggregator overrides the verdict. -/
def overrideNote : String := " [verdict downgraded from APPROVE: critical issues present]"

/-- Modelled from the spec: aggregation step 4 of §4.6 — verdict `APPROVE`
is not permitted when `criticalIssues` is non-empty; if the external
summarizer returns `APPROVE` anyway, the aggregator downgrades the verdict
to `REQUEST_CHANGES` and notes the override. -/
def enforceVerdict (findings : List Finding) (ext : SummarizerOutput) : SummarizerOutput :=
  if ext.verdict = Verdict.APPROVE ∧ criticalIssuesOf findings ≠ [] then
    { ext with verdict := Verdict.REQUEST_CHANGES, summary := ext.summary ++ overrideNote }
  else
    ext

/-- Consume an expected literal character sequence from the head of the
input, as an anchored regex literal does; `none` on any mismatch. -/
def stripPre : List Char → List Char → Option (List Char)
  | [], cs => some cs
  | _ :: _, [] => none
  | p :: ps, c :: cs => if c = p then stripPre ps cs else none

/-- A character the regex class `[^/]` accepts. -/
def notSlash (c : Char) : Bool := c != '/'

/-- Decimal value of a digit string, as `parseInt(s, 10)` computes it on a
string of ASCII digits. -/
def digitsVal (ds : List Char) : Nat :=
  ds.foldl (fun acc c => acc * 10 + (c.toNat - 48)) 0

/-- Consume the regex group `[^/]+`: the maximal non-empty run of
non-slash characters, returning the run and the remainder.  Because the
class excludes exactly the character the regex requires next, the greedy
maximal run is the only possible match. -/
def seg (cs : List Char) : Option (List Char × List Char) :=
  if cs.takeWhile notSlash = [] then none
  else some (cs.takeWhile notSlash, cs.dropWhile notSlash)

/-- Consume one expected literal character. -/
def expectChar (c : Char) : List Char → Option (List Char)
  | [] => none
  | x :: xs => if x = c then some xs else none

/-- Consume the regex group `\d+`: the maximal non-empty digit run.  It is
followed only by `/?$`, which no digit satisfies, so the greedy maximal
run is the only possible match. -/
def digitsSeg (cs : List Char) : Option (List Char × List Char) :=
  if cs.takeWhile Char.isDigit = [] then none
  else some (cs.takeWhile Char.isDigit, cs.dropWhile Char.isDigit)

/-- The part of the PR-URL regex after the scheme and host
(src/mastra/tools/github.ts:21): `([^/]+)/([^/]+)/pull/(\d+)/?$`,
transcribed group by group as a deterministic scan (each group's greedy
maximal match is its only possible match, see `seg` and `digitsSeg`, so
the scan is equivalent to the backtracking regex). -/
def parsePRPath (cs : List Char) : Option (String × String × Nat) :=
  (seg cs).bind fun s1 =>
  (expectChar '/' s1.2).bind fun r3 =>
  (seg r3).bind fun s2 =>
  (stripPre "/pull/".data s2.2).bind fun r5 =>
  (digitsSeg r5).bind fun s3 =>
  if s3.2 = [] ∨ s3.2 = ['/'] then some (⟨s1.1⟩, ⟨s2.1⟩, digitsVal s3.1) else none

/-- Body of `parseGitHubPRUrl` (src/mastra/tools/github.ts:19-33): match the
anchored regex `^https?://github\.com/([^/]+)/([^/]+)/pull/(\d+)/?$`;
`none` models the thrown invalid-URL error (the tool performs no network
call), `some` carries owner, repo and the parsed decimal pull number. -/
def parseGitHubPRUrl (url : String) : Option (String × String × Nat) :=
  match stripPre "https://github.com/".data url.data with
  | some rest => parsePRPath rest
  | none =>
    match stripPre "http://github.com/".data url.data with
    | some rest => parsePRPath rest
    | none => none

/-- A segment the regex group `[^/]+` can produce: non-empty, no slash. -/
def SegOk (s : List Char) : Prop := s ≠ [] ∧ ∀ c ∈ s, c ≠ '/'

/-- A pull-number group `\d+` can produce: non-empty, all ASCII digits. -/
def DigitsOk (ds : List Char) : Prop := ds ≠ [] ∧ ∀ c ∈ ds, c.isDigit = true

/-- The character sequence of a well-formed PR URL with the given scheme
choice, owner, repo, digit string and optional trailing slash. -/
def buildUrl (secure : Bool) (o r ds : List Char) (slash : Bool) : List Char :=
  (if secure then "https://github.com/" else "http://github.com/").data ++
    (o ++ ('/' :: (r ++ ("/pull/".data ++ (ds ++ (if slash then ['/'] else []))))))

/-- The claim's own well-formedness notion, scheme fixed to `https` exactly
as the claim words it. -/
def HttpsFormed (cs : List Char) : Prop :=
  ∃ o r ds slash, SegOk o ∧ SegOk r ∧ DigitsOk ds ∧ cs = buildUrl true o r ds slash

/-- A concrete removed file with zero deletions and a path no pattern matches. -/
def removedTrivialFile : ChangedFile :=
  { filename := "old.ts", status := "removed", additions := 0, deletions := 0,
    changes := 0, patch := none }

/-- A concrete modified file with a small patch, for pagination witnesses. -/
def sampleFile : ChangedFile :=
  { filename := "src/a.ts", status := "modified", additions := 1, deletions := 0,
    changes := 1, patch := some "+x" }

/-- A file whose patch fills the per-file budget exactly. -/
def fitPatchFile : ChangedFile :=
  { filename := "big.ts", status := "modified", additions := 1, deletions := 1,
    changes := 2, patch := some (repChar 20000 'a') }

/-- A file whose patch exceeds the per-file budget by one character. -/
def cutPatchFile : ChangedFile :=
  { filename := "big.ts", status := "modified", additions := 1, deletions := 1,
    changes := 2, patch := some (repChar 20001 'a') }

/-- Fetched file content that fills a 20,000-character budget exactly,
with a reported raw size of 20,001.  The `size` field of the external
fetch result (spec §6) is the file size in bytes reported by the API, not
the decoded character count, so a 20,000-character content with reported
size 20,001 is realizable — any file containing one two-byte UTF-8
character among single-byte ones decodes to one character fewer than its
byte size. -/
def fitFileData : FileData :=
  { content := repChar 20000 'a', encoding := "utf-8", size := 20001 }

/-- Fetched file content one character over the 20,000-character budget,
realizable as an all-single-byte file, so its reported raw size is also
20,001. -/
def cutFileData : FileData :=
  { content := repChar 20001 'a', encoding := "utf-8", size := 20001 }

/-- A concrete critical finding, for aggregation witnesses. -/
def criticalFinding : Finding :=
  { severity := Severity.critical, filename := "a.ts", message := "null deref" }

/-- A concrete summarizer output that (wrongly) approves, for witnesses. -/
def approveSummary : SummarizerOutput :=
  { summary := "looks fine", qualityScore := 9, verdict := Verdict.APPROVE }

theorem truncate_length (t : String) (m : Nat) :
    (truncate t m).length = min m t.length :=
  List.length_take m t.data

theorem truncate_length_le (t : String) (m : Nat) : (truncate t m).length ≤ m := by
  rw [truncate_length]
  exact Nat.min_le_left _ _

theorem truncate_of_le {t : String} {m : Nat} (h : t.length ≤ m) : truncate t m = t := by
  show (⟨t.data.take m⟩ : String) = t
  rw [List.take_of_length_le h]

theorem repChar_length (n : Nat) (c : Char) : (repChar n c).length = n :=
  List.length_replicate n c

theorem length_filter_not_add {α : Type} (p : α → Bool) (l : List α) :
    (l.filter (fun a => !(p a))).length + (l.filter p).length = l.length := by
  induction l with
  | nil => rfl
  | cons a t ih => cases h : p a <;> simp [List.filter_cons, h] <;> omega

/-- C2: for every text and budget, the truncated text has length at most the
budget; a text already within the budget is returned unchanged; and every
50,000-character text cut to a 20,000-character budget has length exactly
20,000. -/
theorem truncate_budget :
    (∀ text maxChars, (truncate text maxChars).length ≤ maxChars ∧
      (text.length ≤ maxChars → truncate text maxChars = text)) ∧
    (∀ text : String, text.length = 50000 → (truncate text 20000).length = 20000) := by
  constructor
  · intro text maxChars
    exact ⟨truncate_length_le text maxChars, fun h => truncate_of_le h⟩
  · intro text h
    rw [truncate_length, h]
    omega

/-- C2 witness: the truncation bounds evaluated at concrete inputs. -/
theorem truncate_budget_witness :
    truncate "ab" 5 = "ab" ∧ (truncate (repChar 50000 'a') 20000).length = 20000 :=
  ⟨(truncate_budget.1 "ab" 5).2 (by decide),
   truncate_budget.2 (repChar 50000 'a') (repChar_length 50000 'a')⟩

/-- C7: `getFileContent` maps a missing file/ref to a null content with
default encoding and zero size rather than an error, and maps an existing
file to its content cut to the full-content budget, which therefore never
exceeds that budget. -/
theorem getFileContent_total (maxContent : Nat) (d : FileData) :
    getFileContent maxContent none =
      { content := none, encoding := "utf-8", size := 0 } ∧
    getFileContent maxContent (some d) =
      { content := some (truncate d.content maxContent), encoding := d.encoding,
        size := d.size } ∧
    (truncate d.content maxContent).length ≤ maxContent :=
  ⟨rfl, rfl, truncate_length_le d.content maxContent⟩

/-- C8: the reviewable list of the filter is a sublist of the input list, so
reviewable files appear in the same relative order as in the input. -/
theorem reviewable_sublist (patterns : List SkipPattern) (files : List ChangedFile) :
    (reviewableFilesOf patterns files).Sublist files :=
  List.filter_sublist files

/-- C10: the per-file mapping of `getPullRequestFiles` keeps filename,
status, additions, deletions and changes exactly, and its patch is the
input patch mapped through the per-file truncation — in particular the
patch is present in the output exactly when present in the input. -/
theorem budgetFile_frame (maxPatch : Nat) (f : ChangedFile) :
    (budgetFile maxPatch f).filename = f.filename ∧
    (budgetFile maxPatch f).status = f.status ∧
    (budgetFile maxPatch f).additions = f.additions ∧
    (budgetFile maxPatch f).deletions = f.deletions ∧
    (budgetFile maxPatch f).changes = f.changes ∧
    (budgetFile maxPatch f).patch = f.patch.map (fun p => truncate p maxPatch) := by
  cases hp : f.patch with
  | none => simp [budgetFile, hp]
  | some p =>
    by_cases he : p = ""
    · subst he
      have : truncate "" maxPatch = "" := truncate_of_le (Nat.zero_le maxPatch)
      simp [budgetFile, hp, this]
    · simp [budgetFile, hp, he]

/-- C4: the Reviewability Filter partitions its input — the reviewable and
skipped counts sum to the input count, the two sets are disjoint by
filename, and every input file lands in one of the two sets. -/
theorem filter_partition (patterns : List SkipPattern) (files : List ChangedFile) :
    (reviewableFilesOf patterns files).length + (skippedFilesOf patterns files).length
        = files.length ∧
    (∀ f ∈ reviewableFilesOf patterns files, ∀ g ∈ skippedFilesOf patterns files,
      f.filename ≠ g.filename) ∧
    (∀ f ∈ files, f ∈ reviewableFilesOf patterns files ∨ f ∈ skippedFilesOf patterns files) := by
  refine ⟨length_filter_not_add _ files, ?_, ?_⟩
  · intro f hf g hg heq
    have hf' := (List.mem_filter.mp hf).2
    have hg' := (List.mem_filter.mp hg).2
    rw [heq] at hf'
    rw [hg'] at hf'
    simp at hf'
  · intro f hf
    by_cases h : patterns.any (fun p => p f.filename) = true
    · exact Or.inr (List.mem_filter.mpr ⟨hf, h⟩)
    · exact Or.inl (List.mem_filter.mpr ⟨hf, by simp [h]⟩)

/-- C1 counterexample: with an empty pattern configuration and threshold 1,
a removed file with zero deletions is skipped by the spec's rule, yet the
source filter leaves it in the reviewable output. -/
theorem skip_rule_counterexample :
    specSkips [] 1 removedTrivialFile = true ∧
    reviewableFilesOf [] [removedTrivialFile] = [removedTrivialFile] :=
  ⟨rfl, rfl⟩

/-- C1 amended: the filter skips a file exactly when its path matches a
configured skip pattern; the spec's extra removed-status/deletion-count
disjunct is not part of the source filter's rule. -/
theorem skip_rule_amended (patterns : List SkipPattern) (threshold : Nat)
    (files : List ChangedFile) (f : ChangedFile) :
    (f ∈ reviewableFilesOf patterns files ↔
      f ∈ files ∧ patterns.any (fun p => p f.filename) = false) ∧
    (f ∈ skippedFilesOf patterns files ↔
      f ∈ files ∧ patterns.any (fun p => p f.filename) = true) ∧
    (specSkips patterns threshold f = true ↔
      patterns.any (fun p => p f.filename) = true ∨
        (f.status = "removed" ∧ f.deletions < threshold)) := by
  refine ⟨?_, ?_, ?_⟩
  · simp [reviewableFilesOf, List.mem_filter]
  · simp [skippedFilesOf, List.mem_filter]
  · simp [specSkips]

/-- C9: for a 1-based page number, `getPullRequestFiles` returns the
contiguous slice of the reviewable list at indices (p-1)*30 through
p*30-1 (per-file budgeted), so at most 30 files; `hasMore` holds exactly
when p*30 is strictly below the reviewable total; and `reviewableCount`
is the number of files on the returned page. -/
theorem paging_spec (patterns : List SkipPattern) (maxPatch : Nat)
    (allFiles : List ChangedFile) (p : Nat) (hp : 1 ≤ p) :
    (getPullRequestFiles patterns maxPatch allFiles p).files =
      (((reviewableFilesOf patterns allFiles).drop ((p - 1) * 30)).take 30).map
        (budgetFile maxPatch) ∧
    (getPullRequestFiles patterns maxPatch allFiles p).files.length ≤ 30 ∧
    ((getPullRequestFiles patterns maxPatch allFiles p).hasMore = true ↔
      p * 30 < (reviewableFilesOf patterns allFiles).length) ∧
    (getPullRequestFiles patterns maxPatch allFiles p).reviewableCount =
      (getPullRequestFiles patterns maxPatch allFiles p).files.length := by
  refine ⟨rfl, ?_, ?_, rfl⟩
  · show ((((reviewableFilesOf patterns allFiles).drop ((p - 1) * FILES_PER_PAGE)).take
      FILES_PER_PAGE).map (budgetFile maxPatch)).length ≤ 30
    rw [List.length_map, List.length_take]
    exact Nat.min_le_left _ _
  · show decide ((p - 1) * FILES_PER_PAGE + FILES_PER_PAGE <
      (reviewableFilesOf patterns allFiles).length) = true ↔ _
    rw [decide_eq_true_iff]
    show (p - 1) * 30 + 30 < _ ↔ p * 30 < _
    omega

/-- C9 witness: the pagination bounds evaluated at a one-file input and
page 1. -/
theorem paging_spec_witness :
    (getPullRequestFiles [] 20000 [sampleFile] 1).files.length ≤ 30 :=
  (paging_spec [] 20000 [sampleFile] 1 (by decide)).2.1

/-- C5: if any finding has severity critical, the aggregator's enforced
verdict is never APPROVE; when the external summarizer approved anyway,
the verdict is downgraded to REQUEST_CHANGES and the override is noted in
the summary. -/
theorem aggregate_no_approve (findings : List Finding) (ext : SummarizerOutput)
    (f : Finding) (hf : f ∈ findings) (hc : f.severity = Severity.critical) :
    (enforceVerdict findings ext).verdict ≠ Verdict.APPROVE ∧
    (ext.verdict = Verdict.APPROVE →
      (enforceVerdict findings ext).verdict = Verdict.REQUEST_CHANGES ∧
      (enforceVerdict findings ext).summary = ext.summary ++ overrideNote) := by
  have hne : criticalIssuesOf findings ≠ [] := by
    have hmem : f.message ∈ criticalIssuesOf findings :=
      List.mem_map_of_mem _ (List.mem_filter.mpr ⟨hf, by simp [hc]⟩)
    exact List.ne_nil_of_mem hmem
  by_cases hv : ext.verdict = Verdict.APPROVE
  · constructor
    · simp [enforceVerdict, hv, hne]
    · intro _
      constructor <;> simp [enforceVerdict, hv, hne]
  · constructor
    · simp only [enforceVerdict]
      rw [if_neg (by intro h; exact hv h.1)]
      exact hv
    · intro h
      exact absurd h hv

/-- C5 witness: the no-APPROVE invariant evaluated at one critical finding
and an approving summarizer output. -/
theorem aggregate_no_approve_witness :
    (enforceVerdict [criticalFinding] approveSummary).verdict ≠ Verdict.APPROVE :=
  (aggregate_no_approve [criticalFinding] approveSummary criticalFinding
    (List.mem_singleton.mpr rfl) rfl).1

/-- C3 counterexample: neither per-file patch truncation nor file-content
truncation is observable.  Two fetched files, one whose patch fits the
per-file budget exactly and one whose patch exceeds it, produce identical
per-file outputs (the file record carries no flag and no field pins the
original patch length); and two fetched file contents, one fitting a
20,000-character content budget and one cut by it, with the same reported
raw size (the `size` field is the byte size reported by the API, which
does not determine the decoded character count — see `fitFileData`),
produce identical `getFileContent` outputs.  So in both operations no
function of the result distinguishes "fit within budget" from "was
cut". -/
theorem truncation_unobservable :
    (budgetFile MAX_PATCH_CHARS_PER_FILE cutPatchFile =
        budgetFile MAX_PATCH_CHARS_PER_FILE fitPatchFile ∧
      MAX_PATCH_CHARS_PER_FILE < (repChar 20001 'a').length ∧
      (repChar 20000 'a').length ≤ MAX_PATCH_CHARS_PER_FILE) ∧
    (getFileContent 20000 (some cutFileData) = getFileContent 20000 (some fitFileData) ∧
      20000 < cutFileData.content.length ∧
      fitFileData.content.length ≤ 20000) := by
  have hteq : truncate (repChar 20001 'a') 20000 = truncate (repChar 20000 'a') 20000 := by
    show (⟨(List.replicate 20001 'a').take 20000⟩ : String) =
      ⟨(List.replicate 20000 'a').take 20000⟩
    rw [List.take_replicate, List.take_replicate]
    norm_num
  constructor
  · refine ⟨?_, ?_, ?_⟩
    · have h1 : repChar 20001 'a' ≠ "" := by
        intro h
        have := congrArg String.length h
        rw [repChar_length] at this
        simp at this
      have h2 : repChar 20000 'a' ≠ "" := by
        intro h
        have := congrArg String.length h
        rw [repChar_length] at this
        simp at this
      simp only [budgetFile, cutPatchFile, fitPatchFile, h1, h2, if_neg]
      rw [show truncate (repChar 20001 'a') MAX_PATCH_CHARS_PER_FILE =
        truncate (repChar 20000 'a') MAX_PATCH_CHARS_PER_FILE from hteq]
      simp
    · rw [repChar_length]
      norm_num [MAX_PATCH_CHARS_PER_FILE]
    · rw [repChar_length]
      norm_num [MAX_PATCH_CHARS_PER_FILE]
  · refine ⟨?_, ?_, ?_⟩
    · simp only [getFileContent, cutFileData, fitFileData]
      rw [hteq]
    · show 20000 < (repChar 20001 'a').length
      rw [repChar_length]
      norm_num
    · show (repChar 20000 'a').length ≤ 20000
      rw [repChar_length]

/-- C3 amended: only the whole-PR diff operation reports truncation — its
`truncated` flag is set exactly when the diff exceeded the budget, and it
is clear exactly when the returned diff is the fetched diff unchanged.
Per-file patch truncation and file-content truncation carry no such flag
and do not distinguish fit from cut, per the counterexample above. -/
theorem diff_truncation_observable (diff : String) :
    ((getPullRequestDiff diff).truncated = true ↔ MAX_DIFF_CHARS < diff.length) ∧
    ((getPullRequestDiff diff).truncated = false ↔ (getPullRequestDiff diff).diff = diff) := by
  by_cases h : MAX_DIFF_CHARS < diff.length
  · have hne : truncate diff MAX_DIFF_CHARS ≠ diff := by
      intro he
      have := congrArg String.length he
      rw [truncate_length] at this
      omega
    constructor
    · simp [getPullRequestDiff, h]
    · simp [getPullRequestDiff, h, hne]
  · constructor
    · simp [getPullRequestDiff, h]
    · simp [getPullRequestDiff, h]



theorem stripPre_self_append (ps rest : List Char) : stripPre ps (ps ++ rest) = some rest := by
  induction ps with
  | nil => rfl
  | cons p ps ih => simp [stripPre, ih]

theorem stripPre_eq_some {ps cs rest : List Char} (h : stripPre ps cs = some rest) :
    cs = ps ++ rest := by
  induction ps generalizing cs with
  | nil =>
    simp only [stripPre, Option.some.injEq] at h
    simp [h]
  | cons p ps ih =>
    cases cs with
    | nil => simp [stripPre] at h
    | cons c cs =>
      simp only [stripPre] at h
      by_cases hc : c = p
      · rw [if_pos hc] at h
        subst hc
        simp [ih h]
      · rw [if_neg hc] at h
        exact absurd h (by simp)

theorem takeWhile_cons_neg {α : Type} {p : α → Bool} {a : α} (l : List α) (h : p a = false) :
    (a :: l).takeWhile p = [] := by
  simp [List.takeWhile_cons, h]

theorem dropWhile_cons_neg {α : Type} {p : α → Bool} {a : α} (l : List α) (h : p a = false) :
    (a :: l).dropWhile p = a :: l := by
  simp [List.dropWhile_cons, h]

theorem dropWhile_eq_self_of_takeWhile_nil {α : Type} {p : α → Bool} {l : List α}
    (h : l.takeWhile p = []) : l.dropWhile p = l := by
  cases l with
  | nil => rfl
  | cons a t =>
    by_cases ha : p a = true
    · simp [List.takeWhile_cons, ha] at h
    · simp at ha
      exact dropWhile_cons_neg t ha

theorem takeWhile_append_nil {α : Type} {p : α → Bool} {A t : List α}
    (h1 : ∀ x ∈ A, p x = true) (h2 : t.takeWhile p = []) :
    (A ++ t).takeWhile p = A := by
  induction A with
  | nil => simpa using h2
  | cons a A ih =>
    have ha := h1 a (List.mem_cons_self a A)
    simp only [List.cons_append, List.takeWhile_cons, ha, if_true]
    rw [ih (fun x hx => h1 x (List.mem_cons_of_mem a hx))]

theorem dropWhile_append_self {α : Type} {p : α → Bool} {A t : List α}
    (h1 : ∀ x ∈ A, p x = true) (h2 : t.takeWhile p = []) :
    (A ++ t).dropWhile p = t := by
  induction A with
  | nil => simpa using dropWhile_eq_self_of_takeWhile_nil h2
  | cons a A ih =>
    have ha := h1 a (List.mem_cons_self a A)
    simp only [List.cons_append, List.dropWhile_cons, ha, if_true]
    exact ih (fun x hx => h1 x (List.mem_cons_of_mem a hx))

theorem seg_append {A t : List Char} (hA : A ≠ []) (h1 : ∀ x ∈ A, notSlash x = true)
    (h2 : t.takeWhile notSlash = []) : seg (A ++ t) = some (A, t) := by
  have e1 := takeWhile_append_nil h1 h2
  have e2 := dropWhile_append_self h1 h2
  simp [seg, e1, e2, hA]

theorem digitsSeg_append {A t : List Char} (hA : A ≠ []) (h1 : ∀ x ∈ A, Char.isDigit x = true)
    (h2 : t.takeWhile Char.isDigit = []) : digitsSeg (A ++ t) = some (A, t) := by
  have e1 := takeWhile_append_nil h1 h2
  have e2 := dropWhile_append_self h1 h2
  simp [digitsSeg, e1, e2, hA]

theorem seg_some {cs : List Char} {a : List Char × List Char} (h : seg cs = some a) :
    a.1 = cs.takeWhile notSlash ∧ a.2 = cs.dropWhile notSlash ∧ a.1 ≠ [] := by
  simp only [seg] at h
  by_cases hc : cs.takeWhile notSlash = []
  · rw [if_pos hc] at h
    exact absurd h (by simp)
  · rw [if_neg hc] at h
    cases Option.some.inj h
    exact ⟨rfl, rfl, hc⟩

theorem digitsSeg_some {cs : List Char} {a : List Char × List Char} (h : digitsSeg cs = some a) :
    a.1 = cs.takeWhile Char.isDigit ∧ a.2 = cs.dropWhile Char.isDigit ∧ a.1 ≠ [] := by
  simp only [digitsSeg] at h
  by_cases hc : cs.takeWhile Char.isDigit = []
  · rw [if_pos hc] at h
    exact absurd h (by simp)
  · rw [if_neg hc] at h
    cases Option.some.inj h
    exact ⟨rfl, rfl, hc⟩

theorem expectChar_some {c : Char} {cs r : List Char} (h : expectChar c cs = some r) :
    cs = c :: r := by
  cases cs with
  | nil => simp [expectChar] at h
  | cons x xs =>
    simp only [expectChar] at h
    by_cases hx : x = c
    · rw [if_pos hx] at h
      cases Option.some.inj h
      rw [hx]
    · rw [if_neg hx] at h
      exact absurd h (by simp)

theorem expectChar_cons (c : Char) (xs : List Char) : expectChar c (c :: xs) = some xs := by
  simp [expectChar]

theorem notSlash_iff {c : Char} : notSlash c = true ↔ c ≠ '/' := by
  simp [notSlash, bne_iff_ne]


theorem takeWhile_all {α : Type} {p : α → Bool} {l : List α}
    (h : ∀ x ∈ l, p x = true) : l.takeWhile p = l := by
  induction l with
  | nil => rfl
  | cons a t ih =>
    have ha := h a (List.mem_cons_self a t)
    simp only [List.takeWhile_cons, ha, if_true]
    rw [ih (fun x hx => h x (List.mem_cons_of_mem a hx))]

theorem dropWhile_all {α : Type} {p : α → Bool} {l : List α}
    (h : ∀ x ∈ l, p x = true) : l.dropWhile p = [] := by
  induction l with
  | nil => rfl
  | cons a t ih =>
    have ha := h a (List.mem_cons_self a t)
    simp only [List.dropWhile_cons, ha, if_true]
    exact ih (fun x hx => h x (List.mem_cons_of_mem a hx))

theorem digitsSeg_full {ds : List Char} (hd1 : ds ≠ [])
    (hd2 : ∀ c ∈ ds, c.isDigit = true) : digitsSeg ds = some (ds, []) := by
  simp [digitsSeg, takeWhile_all hd2, dropWhile_all hd2, hd1]

theorem parsePRPath_eq_some_iff (cs : List Char) (o r : String) (n : Nat) :
    parsePRPath cs = some (o, r, n) ↔
      ∃ (ds : List Char) (slash : Bool), SegOk o.data ∧ SegOk r.data ∧ DigitsOk ds ∧
        n = digitsVal ds ∧
        cs = o.data ++ ('/' :: (r.data ++ ("/pull/".data ++
          (ds ++ (if slash then ['/'] else []))))) := by
  constructor
  · intro h
    simp only [parsePRPath, Option.bind_eq_some] at h
    obtain ⟨s1, hs1, s3r, hr3, s2, hs2, r5, hr5, s3, hs3, h⟩ := h
    by_cases hT : s3.2 = [] ∨ s3.2 = ['/']
    case neg =>
      rw [if_neg hT] at h
      exact absurd h (by simp)
    rw [if_pos hT] at h
    have h' := Option.some.inj h
    rw [Prod.mk.injEq, Prod.mk.injEq] at h'
    obtain ⟨ho, hr, hn⟩ := h'
    obtain ⟨e1, e2, e3⟩ := seg_some hs1
    have e4 := expectChar_some hr3
    obtain ⟨e5, e6, e7⟩ := seg_some hs2
    have e8 := stripPre_eq_some hr5
    obtain ⟨e9, e10, e11⟩ := digitsSeg_some hs3
    have hcs : cs = s1.1 ++ s1.2 := by
      rw [e1, e2, List.takeWhile_append_dropWhile]
    have hr3' : s3r = s2.1 ++ s2.2 := by
      rw [e5, e6, List.takeWhile_append_dropWhile]
    have hr5' : r5 = s3.1 ++ s3.2 := by
      rw [e9, e10, List.takeWhile_append_dropWhile]
    have hSo : SegOk o.data := by
      rw [← ho]
      refine ⟨e3, ?_⟩
      intro c hc
      rw [e1] at hc
      exact notSlash_iff.mp (List.mem_takeWhile_imp hc)
    have hSr : SegOk r.data := by
      rw [← hr]
      refine ⟨e7, ?_⟩
      intro c hc
      rw [e5] at hc
      exact notSlash_iff.mp (List.mem_takeWhile_imp hc)
    have hDd : DigitsOk s3.1 := by
      refine ⟨e11, ?_⟩
      intro c hc
      rw [e9] at hc
      exact List.mem_takeWhile_imp hc
    have hod : o.data = s1.1 := by rw [← ho]
    have hrd : r.data = s2.1 := by rw [← hr]
    rcases hT with hT | hT
    · refine ⟨s3.1, false, hSo, hSr, hDd, hn.symm, ?_⟩
      rw [hcs, e4, hr3', e8, hr5', hT, hod, hrd]
      simp
    · refine ⟨s3.1, true, hSo, hSr, hDd, hn.symm, ?_⟩
      rw [hcs, e4, hr3', e8, hr5', hT, hod, hrd]
      simp
  · rintro ⟨ds, slash, ⟨ho1, ho2⟩, ⟨hr1, hr2⟩, ⟨hd1, hd2⟩, hn, rfl⟩
    have ho2' : ∀ x ∈ o.data, notSlash x = true := fun x hx => notSlash_iff.mpr (ho2 x hx)
    have hr2' : ∀ x ∈ r.data, notSlash x = true := fun x hx => notSlash_iff.mpr (hr2 x hx)
    cases slash with
    | false =>
      have h1 : seg (o.data ++ '/' :: (r.data ++ '/' :: 'p' :: 'u' :: 'l' :: 'l' :: '/' :: ds)) =
          some (o.data, '/' :: (r.data ++ '/' :: 'p' :: 'u' :: 'l' :: 'l' :: '/' :: ds)) :=
        seg_append ho1 ho2' (takeWhile_cons_neg _ rfl)
      have h2 : seg (r.data ++ '/' :: 'p' :: 'u' :: 'l' :: 'l' :: '/' :: ds) =
          some (r.data, '/' :: 'p' :: 'u' :: 'l' :: 'l' :: '/' :: ds) :=
        seg_append hr1 hr2' (takeWhile_cons_neg _ rfl)
      have h4 : stripPre ['/', 'p', 'u', 'l', 'l', '/']
          ('/' :: 'p' :: 'u' :: 'l' :: 'l' :: '/' :: ds) = some ds :=
        stripPre_self_append ['/', 'p', 'u', 'l', 'l', '/'] ds
      have h3 : digitsSeg ds = some (ds, []) := digitsSeg_full hd1 hd2
      simp [parsePRPath, h1, h2, h4, h3, expectChar_cons, hn]
    | true =>
      have h1 : seg (o.data ++ '/' :: (r.data ++ '/' :: 'p' :: 'u' :: 'l' :: 'l' :: '/' ::
          (ds ++ ['/']))) =
          some (o.data, '/' :: (r.data ++ '/' :: 'p' :: 'u' :: 'l' :: 'l' :: '/' ::
            (ds ++ ['/']))) :=
        seg_append ho1 ho2' (takeWhile_cons_neg _ rfl)
      have h2 : seg (r.data ++ '/' :: 'p' :: 'u' :: 'l' :: 'l' :: '/' :: (ds ++ ['/'])) =
          some (r.data, '/' :: 'p' :: 'u' :: 'l' :: 'l' :: '/' :: (ds ++ ['/'])) :=
        seg_append hr1 hr2' (takeWhile_cons_neg _ rfl)
      have h4 : stripPre ['/', 'p', 'u', 'l', 'l', '/']
          ('/' :: 'p' :: 'u' :: 'l' :: 'l' :: '/' :: (ds ++ ['/'])) = some (ds ++ ['/']) :=
        stripPre_self_append ['/', 'p', 'u', 'l', 'l', '/'] (ds ++ ['/'])
      have h3 : digitsSeg (ds ++ ['/']) = some (ds, ['/']) :=
        digitsSeg_append hd1 hd2 (takeWhile_cons_neg _ rfl)
      simp [parsePRPath, h1, h2, h4, h3, expectChar_cons, hn]



theorem stripPre_https_http (X : List Char) :
    stripPre "https://github.com/".data ("http://github.com/".data ++ X) = none := rfl

theorem parseGitHubPRUrl_eq_some_iff (url o r : String) (n : Nat) :
    parseGitHubPRUrl url = some (o, r, n) ↔
      ∃ (secure : Bool) (ds : List Char) (slash : Bool), SegOk o.data ∧ SegOk r.data ∧
        DigitsOk ds ∧ n = digitsVal ds ∧
        url.data = buildUrl secure o.data r.data ds slash := by
  constructor
  · intro h
    unfold parseGitHubPRUrl at h
    split at h
    case h_1 rest heq =>
      have hd := stripPre_eq_some heq
      rw [parsePRPath_eq_some_iff] at h
      obtain ⟨ds, slash, hSo, hSr, hD, hn, hrest⟩ := h
      refine ⟨true, ds, slash, hSo, hSr, hD, hn, ?_⟩
      rw [hd, hrest]
      rfl
    case h_2 heq1 =>
      split at h
      case h_1 rest heq =>
        have hd := stripPre_eq_some heq
        rw [parsePRPath_eq_some_iff] at h
        obtain ⟨ds, slash, hSo, hSr, hD, hn, hrest⟩ := h
        refine ⟨false, ds, slash, hSo, hSr, hD, hn, ?_⟩
        rw [hd, hrest]
        rfl
      case h_2 => exact absurd h (by simp)
  · rintro ⟨secure, ds, slash, hSo, hSr, hD, hn, hurl⟩
    cases secure with
    | true =>
      have hs : stripPre "https://github.com/".data url.data =
          some (o.data ++ ('/' :: (r.data ++ ("/pull/".data ++
            (ds ++ (if slash then ['/'] else [])))))) := by
        rw [hurl]
        exact stripPre_self_append _ _
      have hm : parseGitHubPRUrl url = parsePRPath (o.data ++ ('/' :: (r.data ++
          ("/pull/".data ++ (ds ++ (if slash then ['/'] else [])))))) := by
        unfold parseGitHubPRUrl
        rw [hs]
      rw [hm, parsePRPath_eq_some_iff]
      exact ⟨ds, slash, hSo, hSr, hD, hn, rfl⟩
    | false =>
      have hn1 : stripPre "https://github.com/".data url.data = none := by
        rw [hurl]
        exact stripPre_https_http _
      have hs : stripPre "http://github.com/".data url.data =
          some (o.data ++ ('/' :: (r.data ++ ("/pull/".data ++
            (ds ++ (if slash then ['/'] else [])))))) := by
        rw [hurl]
        exact stripPre_self_append _ _
      have hm : parseGitHubPRUrl url = parsePRPath (o.data ++ ('/' :: (r.data ++
          ("/pull/".data ++ (ds ++ (if slash then ['/'] else [])))))) := by
        unfold parseGitHubPRUrl
        rw [hn1, hs]
      rw [hm, parsePRPath_eq_some_iff]
      exact ⟨ds, slash, hSo, hSr, hD, hn, rfl⟩

/-- C6 amended: `parseGitHubPRUrl` succeeds exactly on URLs of the form
http(s)://github.com/owner/repo/pull/<digits>, optionally with one
trailing slash, where owner and repo are non-empty slash-free segments
and the pull number is a non-empty digit run; on success it returns the
owner, the repo, and the decimal value of the digit run, and on every
other input it fails (throws, modelled as `none`) without any network
call. -/
theorem parse_url_spec :
    (∀ (url o r : String) (n : Nat), parseGitHubPRUrl url = some (o, r, n) ↔
      ∃ (secure : Bool) (ds : List Char) (slash : Bool), SegOk o.data ∧ SegOk r.data ∧
        DigitsOk ds ∧ n = digitsVal ds ∧
        url.data = buildUrl secure o.data r.data ds slash) ∧
    (∀ url : String, parseGitHubPRUrl url = none ↔
      ¬ ∃ (secure : Bool) (o r ds : List Char) (slash : Bool), SegOk o ∧ SegOk r ∧
        DigitsOk ds ∧ url.data = buildUrl secure o r ds slash) := by
  refine ⟨parseGitHubPRUrl_eq_some_iff, ?_⟩
  intro url
  constructor
  · rintro hnone ⟨secure, o, r, ds, slash, hSo, hSr, hD, hurl⟩
    have hsome : parseGitHubPRUrl url = some (⟨o⟩, ⟨r⟩, digitsVal ds) :=
      (parseGitHubPRUrl_eq_some_iff url ⟨o⟩ ⟨r⟩ (digitsVal ds)).mpr
        ⟨secure, ds, slash, hSo, hSr, hD, rfl, hurl⟩
    rw [hnone] at hsome
    exact absurd hsome (by simp)
  · intro hne
    cases hp : parseGitHubPRUrl url with
    | none => rfl
    | some v =>
      obtain ⟨o, r, n⟩ := v
      obtain ⟨secure, ds, slash, hSo, hSr, hD, hn, hurl⟩ :=
        (parseGitHubPRUrl_eq_some_iff url o r n).mp hp
      exact absurd ⟨secure, o.data, r.data, ds, slash, hSo, hSr, hD, hurl⟩ hne

/-- C6 counterexample: the source regex `^https?://...` also accepts the
plain-http scheme, so this URL is not of the claim's https-only form and
yet parsing succeeds instead of failing. -/
theorem parse_url_counterexample :
    parseGitHubPRUrl "http://github.com/a/b/pull/7" = some ("a", "b", 7) ∧
    ¬ HttpsFormed ("http://github.com/a/b/pull/7").data := by
  constructor
  · decide
  · rintro ⟨o, r, ds, slash, hSo, hSr, hD, h⟩
    have h5 := congrArg (List.take 5) h
    rw [show buildUrl true o r ds slash = "https://github.com/".data ++ (o ++ ('/' :: (r ++
      ("/pull/".data ++ (ds ++ (if slash then ['/'] else [])))))) from rfl] at h5
    rw [List.take_append_of_le_length (by decide)] at h5
    exact absurd h5 (by decide)

end PRReview
